import Mathlib

/-!
Verification development for the Yuque-SSG document-tree resolution and
markdown-rewrite pipeline.

Strings are modelled as lists of characters (`Str`), matching Rust's
`String` as a sequence of `char`s; byte payloads are lists of naturals.
External collaborators (the pinyin lookup table, the HTTP image fetcher,
the `image` codec) are parameters of the definitions that use them, and
the `url` crate is modelled by a small parser adequate for the
`scheme://host/seg/...` URLs the generator handles.
-/

set_option maxHeartbeats 1000000

abbrev Str := List Char

/-- Split a character list at every occurrence of a single separator
character (the pieces semantics of Rust's `split`). -/
def splitChar (sep : Char) : Str → List Str
  | [] => [[]]
  | c :: rest =>
    if c = sep then [] :: splitChar sep rest
    else
      match splitChar sep rest with
      | s :: ss => (c :: s) :: ss
      | [] => [[c]]

/-- Prepend a character to the first piece of a split result. -/
def consHead (c : Char) : List Str → List Str
  | s :: ss => (c :: s) :: ss
  | [] => [[c]]

/-- Split at every non-overlapping occurrence of `---`, scanning left to
right: the behaviour of `Regex::new(r"---").split` in `filter_schema`. -/
def splitDashes : Str → List Str
  | '-' :: '-' :: '-' :: rest => [] :: splitDashes rest
  | c :: rest => consHead c (splitDashes rest)
  | [] => [[]]

/-- Substring test (Rust `str::contains` for a literal pattern). -/
def containsL (pat : Str) : Str → Bool
  | [] => pat.isEmpty
  | c :: rest => pat.isPrefixOf (c :: rest) || containsL pat rest

/-- Join pieces with a separator (Rust `join`). -/
def intercalateL (sep : Str) : List Str → Str
  | [] => []
  | [x] => x
  | x :: xs => x ++ sep ++ intercalateL sep xs

/-- Lower-case every character (Rust `str::to_lowercase`, modelled on the
ASCII range that the generator's slugs and paths use). -/
def toLowerL (s : Str) : Str := s.map Char.toLower

/-- Trim whitespace from both ends (Rust `str::trim`). -/
def trimL (s : Str) : Str :=
  ((s.dropWhile Char.isWhitespace).reverse.dropWhile Char.isWhitespace).reverse

/- ### Slug transliterator (src/toc/parse.rs, `to_pinyin_or_lowercase`) -/

/-- The character class `[一-龥]` used to recognise Han characters. -/
def isHan (c : Char) : Bool := 0x4e00 ≤ c.toNat && c.toNat ≤ 0x9fa5

/-- The scanning loop of `to_pinyin_or_lowercase`: accumulate a run of
non-Han characters in `cur`; at a Han character, flush the non-empty run,
then emit the pinyin of the character.  A trailing non-Han run is not
flushed (exactly as in the source, where `current` is dropped after the
loop whenever `result` is non-empty). -/
def segmentsAux (py : Char → Str) : Str → Str → List Str
  | [], _ => []
  | c :: rest, cur =>
    if isHan c then
      (if cur.isEmpty then [] else [cur]) ++ (py c :: segmentsAux py rest [])
    else segmentsAux py rest (cur ++ [c])

/-- Segment list produced by the scan; when no Han character was found the
whole input string becomes the single segment. -/
def segments (py : Char → Str) (s : Str) : List Str :=
  let r := segmentsAux py s []
  if r.isEmpty then [s] else r

/-- `regex.replace_all(&str, r"-$0")` for the pattern `([A-Z])`: put a
hyphen in front of every capital letter. -/
def hyphenizeCaps (s : Str) : Str :=
  s.flatMap (fun c => if c.isUpper then ['-', c] else [c])

/-- Per-segment normalisation: hyphenize capitals, then, only when the
result begins with a hyphen, drop that hyphen and lower-case the whole
segment (`strip_prefix('-')` followed by `to_lowercase`). -/
def transformSegment (s : Str) : Str :=
  match hyphenizeCaps s with
  | '-' :: rest => toLowerL rest
  | r => r

/-- `to_pinyin_or_lowercase`, parameterised by the external pinyin lookup
table `py` (the `pinyin` crate). -/
def to_pinyin_or_lowercase (py : Char → Str) (s : Str) : Str :=
  intercalateL ['-'] ((segments py s).map transformSegment)

/- ### TOC path resolver (src/toc/parse.rs, `parse_toc_structure`) -/

/-- A table-of-contents entry as consumed from the remote API. -/
inductive Toc where
  | doc (title : Str) (level : Nat) (child_uuid : Str) (url : Str) (id : Nat)
  | title (title : Str) (level : Nat) (child_uuid : Str)
deriving DecidableEq

/-- `n` repetitions of `PathBuf::pop`. -/
def popLevels : List Str → Nat → List Str
  | p, 0 => p
  | p, n + 1 => popLevels p.dropLast n

/-- The loop body of `parse_toc_structure`: `path` is the directory stack
(a list of path components), `level` the current nesting level, `isIndex`
the flag carried across iterations in the source. -/
def parseTocGo (py : Char → Str) :
    List Str → Nat → Bool → List Toc → List (List Str)
  | _, _, _, [] => []
  | path, level, isIndex, .doc t l cu _ _ :: rest =>
    let path := if l < level then popLevels path (level - l) else path
    let level := if l < level then l else level
    let st :=
      if cu.isEmpty then (path, level, isIndex)
      else (path ++ [to_pinyin_or_lowercase py t], level + 1, true)
    let out :=
      if st.2.2 then st.1 ++ ["index.md".data]
      else st.1 ++ [to_pinyin_or_lowercase py t ++ ".md".data]
    out :: parseTocGo py st.1 st.2.1 false rest
  | path, level, isIndex, .title t l cu :: rest =>
    let path := if l < level then popLevels path (level - l) else path
    let level := if l < level then l else level
    let st :=
      if cu.isEmpty then (path, level)
      else (path ++ [to_pinyin_or_lowercase py t], level + 1)
    st.1 :: parseTocGo py st.1 st.2 isIndex rest

/-- `parse_toc_structure(root, toc)`: the stack starts at
`./docs/<root>` (components `.`, `docs`, `root`). -/
def parse_toc_structure (py : Char → Str) (root : Str) (toc : List Toc) :
    List (List Str) :=
  parseTocGo py [".".data, "docs".data, root] 0 false toc

/-- Display a component list as the equivalent filesystem path relative to
the current directory: `.` components are redundant and dropped, the rest
joined with `/` (so `./docs/x` displays as `docs/x`, the same file). -/
def displayNormalized (p : List Str) : Str :=
  intercalateL ['/'] (p.filter (fun seg => seg ≠ ".".data))

/- ### Schema extraction (src/generator.rs, `parse_schema` / `filter_schema`) -/

/-- Strip one trailing carriage return (part of Rust `str::lines`). -/
def stripCR (l : Str) : Str := if l.getLast? = some '\r' then l.dropLast else l

/-- Rust `str::lines`: split on newline, drop the final empty piece that a
trailing newline produces, strip a trailing carriage return per line. -/
def rustLines (s : Str) : List Str :=
  let ps := splitChar '\n' s
  let ps := if ps.getLast? = some [] then ps.dropLast else ps
  ps.map stripCR

/-- `Regex::new("<a .*>").is_match(line)`: the line contains `<a ` with a
closing angle bracket somewhere after it. -/
def containsAnchorTag : Str → Bool
  | '<' :: 'a' :: ' ' :: rest => rest.contains '>'
  | _ :: rest => containsAnchorTag rest
  | [] => false

/-- `line.trim_start_matches("##")`: remove every leading `##` pair. -/
def trimHashPairs : Str → Str
  | '#' :: '#' :: rest => trimHashPairs rest
  | l => l

/-- The JSON object built by `parse_schema`: section key to list of
captured lines. -/
abbrev Schema := List (Str × List Str)

/-- `schema[key] = json!([])`: (re)bind a key to a fresh empty array. -/
def setKey (m : Schema) (k : Str) (v : List Str) : Schema :=
  if m.any (fun p => p.1 = k) then
    m.map (fun p => if p.1 = k then (k, v) else p)
  else m ++ [(k, v)]

/-- `schema[key].as_array_mut().unwrap().push(line)`. -/
def pushKey (m : Schema) (k : Str) (line : Str) : Schema :=
  m.map (fun p => if p.1 = k then (p.1, p.2 ++ [line]) else p)

/-- The line loop of `parse_schema`: skip anchor-tag and empty lines; a
`##` line opens a key (bound to an empty array); a following line is
pushed under the open key, which then resets. -/
def parseSchemaGo : List Str → Str → Schema → Schema
  | [], _, schema => schema
  | line :: rest, currentKey, schema =>
    if containsAnchorTag line || line.isEmpty then
      parseSchemaGo rest currentKey schema
    else if "##".data.isPrefixOf line then
      let k := trimL (trimHashPairs line)
      parseSchemaGo rest k (setKey schema k [])
    else if currentKey.isEmpty then parseSchemaGo rest currentKey schema
    else parseSchemaGo rest [] (pushKey schema currentKey line)

/-- `parse_schema(text)`. -/
def parse_schema (text : Str) : Schema := parseSchemaGo (rustLines text) [] []

/-- The process-wide schema table: document path to parsed schema. -/
abbrev SchemaTable := List (Str × Schema)

/-- `HashMap::insert` on the schema table (replace or append). -/
def tableInsert (t : SchemaTable) (k : Str) (v : Schema) : SchemaTable :=
  if t.any (fun p => p.1 = k) then
    t.map (fun p => if p.1 = k then (k, v) else p)
  else t ++ [(k, v)]

/-- `filter_schema(text, path, schemas)`: split on `---`; with a single
piece return it and leave the table alone; otherwise the last piece is
parsed as the schema block and stored under `path`, and the earlier
pieces re-joined with `---` become the body. -/
def filter_schema (text : Str) (path : Str) (schemas : SchemaTable) :
    Str × SchemaTable :=
  let pieces := splitDashes text
  match pieces with
  | [] => (text, schemas)
  | [single] => (single, schemas)
  | _ :: _ :: _ =>
    (intercalateL "---".data pieces.dropLast,
     tableInsert schemas path (parse_schema (pieces.getLastD [])))

/- ### URL model (the external url crate, simplified) -/

/-- A parsed absolute URL: scheme, host, and the path split at slashes. -/
structure ParsedUrl where
  scheme : Str
  host : Str
  pathSegs : List Str
deriving DecidableEq

/-- Split a string at the first occurrence of `://`. -/
def splitAtScheme : Str → Option (Str × Str)
  | [] => none
  | c :: rest =>
    if [':', '/', '/'].isPrefixOf (c :: rest) then some ([], rest.drop 2)
    else (splitAtScheme rest).map (fun p => (c :: p.1, p.2))

/-- Modelled from the external url crate: `Url::parse` for the
`scheme://host/segments` shape used by the generator; a relative string
(no `://`) or an empty scheme fails to parse. -/
def parseUrl (s : Str) : Option ParsedUrl :=
  match splitAtScheme s with
  | none => none
  | some (scheme, rest) =>
    if scheme.isEmpty then none
    else
      match splitChar '/' rest with
      | [] => none
      | host :: segs => some ⟨scheme, host, segs⟩

/-- `Url::domain()`: the host when present. -/
def urlDomain (u : ParsedUrl) : Option Str :=
  if u.host.isEmpty then none else some u.host

/-- `Path::file_name` on the URL path: its last non-empty segment. -/
def pathFileName (segs : List Str) : Option Str :=
  (segs.filter (fun s => !s.isEmpty)).getLast?

/- ### Markdown AST and rewrite passes (src/formatter.rs, src/generator.rs) -/

/-- UTF-8 encoding of one character. -/
def utf8Encode (c : Char) : List Nat :=
  let n := c.toNat
  if n < 0x80 then [n]
  else if n < 0x800 then [0xC0 + n / 64, 0x80 + n % 64]
  else if n < 0x10000 then
    [0xE0 + n / 4096, 0x80 + n / 64 % 64, 0x80 + n % 64]
  else
    [0xF0 + n / 262144, 0x80 + n / 4096 % 64, 0x80 + n / 64 % 64,
     0x80 + n % 64]

/-- The bytes of a string (`String::into_bytes`). -/
def strBytes (s : Str) : List Nat := s.flatMap utf8Encode

/-- The base64 alphabet. -/
def b64Char (n : Nat) : Char :=
  "ABCDEFGHIJKLMNOPQRSTUVWXYZabcdefghijklmnopqrstuvwxyz0123456789+/".data.getD n '?'

/-- RFC 4648 base64 with padding (`BASE64_STANDARD.encode`), on bytes. -/
def base64Encode : List Nat → Str
  | [] => []
  | [a] => [b64Char (a / 4), b64Char (a % 4 * 16), '=', '=']
  | [a, b] => [b64Char (a / 4), b64Char (a % 4 * 16 + b / 16), b64Char (b % 16 * 4), '=']
  | a :: b :: c :: rest =>
    b64Char (a / 4) :: b64Char (a % 4 * 16 + b / 16) ::
      b64Char (b % 16 * 4 + c / 64) :: b64Char (c % 64) :: base64Encode rest

/-- The external image crate: decoding a payload into a raster image and
re-encoding that image as PNG bytes. -/
structure ImageCodec where
  decode : List Nat → Except Str (List Nat)
  encodePng : List Nat → List Nat

/-- `image_to_base64`: re-encode to PNG, base64, and wrap in a data URI. -/
def image_to_base64 (codec : ImageCodec) (img : List Nat) : Str :=
  "data:image/png;base64,".data ++ base64Encode (codec.encodePng img)

/-- Markdown node payloads (the comrak `NodeValue`s the passes touch). -/
inductive NodeValue where
  | document
  | text (s : Str)
  | link (url : Str)
  | image (url : Str)
  | htmlBlock (blockType : Nat) (literal : List Nat)
  | heading (level : Nat)
deriving DecidableEq

mutual
/-- A markdown AST node: a value and its children. -/
inductive Node where
  | mk (value : NodeValue) (children : NodeList)
deriving DecidableEq
/-- Children lists of markdown AST nodes. -/
inductive NodeList where
  | nil
  | cons (n : Node) (ns : NodeList)
deriving DecidableEq
end

def Node.value : Node → NodeValue
  | .mk v _ => v

def Node.children : Node → NodeList
  | .mk _ cs => cs

/-- `b"<svg"`, the sniffed vector-markup magic. -/
def svgMagic : List Nat := strBytes "<svg".data

/-- Replace every occurrence of the brace-pair placeholder (Rust
`str::replace("\x7b\x7d", url)` in `CODEPEN_IFRAME.replace`). -/
def replaceBracePair (rep : Str) : Str → Str
  | '\x7b' :: '\x7d' :: rest => rep ++ replaceBracePair rep rest
  | c :: rest => c :: replaceBracePair rep rest
  | [] => []

/-- The `CODEPEN_IFRAME` constant from src/lib.rs (placeholder written as
an escaped brace pair). -/
def CODEPEN_IFRAME : Str :=
  "<iframe height=\"400\" style=\"width: 100%;\" scrolling=\"no\" title=\"Untitled\" src=\"\x7b\x7d\" frameborder=\"no\" loading=\"lazy\" allowtransparency=\"true\" allowfullscreen=\"true\"></iframe>\n".data

/-- `convert_image_to_base64` on one node's value, with the fetch
collaborator and the image codec as parameters; the first component logs
the URL handed to `client.get` when a fetch is attempted.  Per-node
errors (unparseable URL, failed fetch, failed decode) leave the value
untouched (the traversal discards them with `.ok()`). -/
def convert_image (codec : ImageCodec) (fetch : Str → Except Str (List Nat)) :
    NodeValue → List Str × NodeValue
  | .image url =>
    match parseUrl url with
    | none => ([], .image url)
    | some _ =>
      match fetch url with
      | .error _ => ([url], .image url)
      | .ok bytes =>
        if svgMagic.isPrefixOf bytes then ([url], .htmlBlock 7 bytes)
        else
          match codec.decode bytes with
          | .error _ => ([url], .image url)
          | .ok img => ([url], .image (image_to_base64 codec img))
  | v => ([], v)

/-- What `convert_link` decides to do with one node. -/
inductive LinkResult where
  | unchanged
  | panicked
  | toHtml (literal : List Nat)
  | toLink (newUrl : Str)
deriving DecidableEq

/-- `ArticlePathIndex` for one namespace: slug to emitted path
components. -/
abbrev Articles := List (Str × List Str)

/-- Lookup in the article index. -/
def articlesGet : Articles → Str → Option (List Str)
  | [], _ => none
  | (k, v) :: rest, slug => if k = slug then some v else articlesGet rest slug

/-- `path.strip_prefix("./docs")` on a component list; `none` is the
`unwrap` panic in the source. -/
def stripDocsRoot (p : List Str) : Option (List Str) :=
  match p with
  | a :: b :: rest =>
    if a = ".".data then if b = "docs".data then some rest else none else none
  | _ => none

/-- `convert_link` on one node's value.  A non-link node has an empty URL
whose parse fails, so it too takes the `unchanged` (swallowed-error)
path, exactly as in the source. -/
def convert_link (articles : Articles) (v : NodeValue) : LinkResult :=
  let url : Str := match v with | .link u => u | _ => []
  match parseUrl url with
  | none => .unchanged
  | some pu =>
    match urlDomain pu with
    | none => .unchanged
    | some domain =>
      if containsL "codepen".data domain then
        .toHtml (strBytes (replaceBracePair url CODEPEN_IFRAME))
      else
        match pathFileName pu.pathSegs with
        | none => .unchanged
        | some slug =>
          match articlesGet articles slug with
          | none => .unchanged
          | some p =>
            match stripDocsRoot p with
            | none => .panicked
            | some p2 => .toLink ('/' :: intercalateL ['/'] p2)

mutual
/-- `iter_nodes_with_args` running `convert_image_to_base64`: visit the
node, then its children (which that pass never alters); the log collects
the fetched URLs in visit order. -/
def iter_image (codec : ImageCodec) (fetch : Str → Except Str (List Nat)) :
    Node → List Str × Node
  | .mk v cs =>
    let r := convert_image codec fetch v
    let rs := iter_imageList codec fetch cs
    (r.1 ++ rs.1, .mk r.2 rs.2)
/-- `iter_image` over a children list. -/
def iter_imageList (codec : ImageCodec) (fetch : Str → Except Str (List Nat)) :
    NodeList → List Str × NodeList
  | .nil => ([], .nil)
  | .cons n ns =>
    let a := iter_image codec fetch n
    let b := iter_imageList codec fetch ns
    (a.1 ++ b.1, .cons a.2 b.2)
end

mutual
/-- `iter_nodes_with_args` running `convert_link`: per-node errors are
swallowed (`.ok()`), the embeddable-widget branch replaces the node and
detaches all children, the inner-link branch rewrites the URL and keeps
only the first child; the traversal continues into the children left on
the node after mutation.  A `strip_prefix` panic aborts the whole
traversal (`Except.error`). -/
def iter_link (articles : Articles) : Node → Except Str Node
  | .mk v cs =>
    match convert_link articles v with
    | .unchanged =>
      match iter_linkList articles cs with
      | .error e => .error e
      | .ok cs2 => .ok (.mk v cs2)
    | .panicked => .error "called Option::unwrap on a None value".data
    | .toHtml lit => .ok (.mk (.htmlBlock 6 lit) .nil)
    | .toLink u =>
      match cs with
      | .nil => .ok (.mk (.link u) .nil)
      | .cons c _ =>
        match iter_link articles c with
        | .error e => .error e
        | .ok c2 => .ok (.mk (.link u) (.cons c2 .nil))
/-- `iter_link` over a children list. -/
def iter_linkList (articles : Articles) : NodeList → Except Str NodeList
  | .nil => .ok .nil
  | .cons n ns =>
    match iter_link articles n with
    | .error e => .error e
    | .ok n2 =>
      match iter_linkList articles ns with
      | .error e => .error e
      | .ok ns2 => .ok (.cons n2 ns2)
end

/-- The pass sequence of `write_markdown` on the parsed tree:
`format_with_args(convert_image_to_base64, ...)` first, then
`format_with_args(convert_link, ...)`; the log records every URL fetched
during the image pass. -/
def write_markdown_passes (codec : ImageCodec)
    (fetch : Str → Except Str (List Nat)) (articles : Articles)
    (doc : Node) : List Str × Except Str Node :=
  let r := iter_image codec fetch doc
  (r.1, iter_link articles r.2)

/-- Modelled from the spec: pass 1, embed-widget conversion on its own —
a link whose domain matches the embeddable-widget provider becomes the
iframe HTML block (children detached); everything else is untouched. -/
def spec_embed (v : NodeValue) : Option (List Nat) :=
  match v with
  | .link url =>
    match parseUrl url with
    | none => none
    | some pu =>
      match urlDomain pu with
      | none => none
      | some domain =>
        if containsL "codepen".data domain then
          some (strBytes (replaceBracePair url CODEPEN_IFRAME))
        else none
  | _ => none

mutual
/-- Modelled from the spec: the embed-widget pass as a whole-tree
pre-order pass. -/
def spec_embedPass : Node → Node
  | .mk v cs =>
    match spec_embed v with
    | some lit => .mk (.htmlBlock 6 lit) .nil
    | none => .mk v (spec_embedPassList cs)
/-- `spec_embedPass` over a children list. -/
def spec_embedPassList : NodeList → NodeList
  | .nil => .nil
  | .cons n ns => .cons (spec_embedPass n) (spec_embedPassList ns)
end

/-- Modelled from the spec: pass 3, internal-link resolution for links
not already converted by pass 1 — the rewritten URL when the slug
resolves, `none` (leave as-is) otherwise. -/
def spec_resolve (articles : Articles) (v : NodeValue) : Option Str :=
  match v with
  | .link url =>
    match parseUrl url with
    | none => none
    | some pu =>
      if pu.host.isEmpty then none
      else
        match pathFileName pu.pathSegs with
        | none => none
        | some slug =>
          match articlesGet articles slug with
          | none => none
          | some p =>
            match stripDocsRoot p with
            | none => none
            | some p2 => some ('/' :: intercalateL ['/'] p2)
  | _ => none

mutual
/-- Modelled from the spec: the internal-link-resolution pass as a
whole-tree pre-order pass, keeping the first child on a rewrite. -/
def spec_linkResolvePass (articles : Articles) : Node → Node
  | .mk v cs =>
    match spec_resolve articles v with
    | some u =>
      match cs with
      | .nil => .mk (.link u) .nil
      | .cons c _ => .mk (.link u) (.cons (spec_linkResolvePass articles c) .nil)
    | none => .mk v (spec_linkResolvePassList articles cs)
/-- `spec_linkResolvePass` over a children list. -/
def spec_linkResolvePassList (articles : Articles) : NodeList → NodeList
  | .nil => .nil
  | .cons n ns =>
    .cons (spec_linkResolvePass articles n) (spec_linkResolvePassList articles ns)
end

/-- Modelled from the spec: the pipeline in the spec's required pass
order — embed-widget conversion, then remote-image inlining, then
internal-link resolution. -/
def spec_pipeline (codec : ImageCodec) (fetch : Str → Except Str (List Nat))
    (articles : Articles) (doc : Node) : List Str × Node :=
  let t1 := spec_embedPass doc
  let r := iter_image codec fetch t1
  (r.1, spec_linkResolvePass articles r.2)

/-- The URL fetch that one node value triggers in the image pass: the URL
of an image node when it parses, nothing otherwise. -/
def imageUrlOf : NodeValue → List Str
  | .image url => (match parseUrl url with | some _ => [url] | none => [])
  | _ => []

mutual
/-- The URLs of all image nodes with a parseable URL, in pre-order. -/
def collectImageUrls : Node → List Str
  | .mk v cs => imageUrlOf v ++ collectImageUrlsList cs
/-- `collectImageUrls` over a children list. -/
def collectImageUrlsList : NodeList → List Str
  | .nil => []
  | .cons n ns => collectImageUrls n ++ collectImageUrlsList ns
end

/- ### Sidebar tree builder (src/toc/generate.rs, `walk` /
`generate_doc_sidebar`) -/

/-- The frontmatter fields the sidebar builder reads back from a file. -/
structure Fm where
  sidebar : Str
  order : Nat
deriving DecidableEq

mutual
/-- A directory entry of the emitted output tree; a directory carries the
frontmatter of its `index.md`. -/
inductive FsEntry where
  | file (name : Str) (fm : Fm)
  | dir (name : Str) (indexFm : Fm) (entries : FsEntryList)
deriving DecidableEq
/-- Entries of one directory, in read order. -/
inductive FsEntryList where
  | nil
  | cons (e : FsEntry) (es : FsEntryList)
deriving DecidableEq
end

mutual
/-- A navigation entry (the serialized `SidebarItem`). -/
inductive SidebarItem where
  | mk (text : Str) (link : Str) (items : SidebarItems) (collapsed : Option Bool)
      (order : Nat)
deriving DecidableEq
/-- The optional children list of a navigation entry. -/
inductive SidebarItems where
  | noItems
  | items (l : SidebarItemList)
deriving DecidableEq
/-- A list of navigation entries nested inside an entry. -/
inductive SidebarItemList where
  | nil
  | cons (i : SidebarItem) (rest : SidebarItemList)
deriving DecidableEq
end

def SidebarItem.order : SidebarItem → Nat
  | .mk _ _ _ _ o => o

def SidebarItem.link : SidebarItem → Str
  | .mk _ l _ _ _ => l

/-- Pack a plain list of navigation entries into the nested form. -/
def packItems : List SidebarItem → SidebarItemList
  | [] => .nil
  | x :: xs => .cons x (packItems xs)

/-- Unpack the nested form back into a plain list. -/
def unpackItems : SidebarItemList → List SidebarItem
  | .nil => []
  | .cons x xs => x :: unpackItems xs

/-- Stable ascending insertion by the `order` key. -/
def insertByOrder (x : SidebarItem) : List SidebarItem → List SidebarItem
  | [] => [x]
  | y :: ys => if x.order ≤ y.order then x :: y :: ys else y :: insertByOrder x ys

/-- `sort_by_key(|v| v.order)`: the stable ascending sort by `order` (as
a function on lists, every stable sort agrees with insertion sort). -/
def sortByOrder : List SidebarItem → List SidebarItem
  | [] => []
  | x :: xs => insertByOrder x (sortByOrder xs)

/-- `split_once('.')`: the pieces around the first dot, if any. -/
def splitOnceDot : Str → Option (Str × Str)
  | [] => none
  | c :: rest =>
    if c = '.' then some ([], rest)
    else (splitOnceDot rest).map (fun p => (c :: p.1, p.2))

/-- The recursive directory `walk`: skip `index*` entries; a directory
contributes an entry whose children are its own walk sorted by `order`
with `collapsed = false`; a plain file contributes a leaf entry whose
link ends in `.html`.  A file name without a dot hits
`split_once('.').unwrap()` — the panic is modelled as `Except.error`. -/
def walk (segs : List Str) : FsEntryList → Except Str (List SidebarItem)
  | .nil => .ok []
  | .cons (.file name fm) rest =>
    if "index".data.isPrefixOf name then walk segs rest
    else
      match splitOnceDot name with
      | none => .error name
      | some (base, _) =>
        match walk segs rest with
        | .error e => .error e
        | .ok tail =>
          .ok (SidebarItem.mk fm.sidebar
                (toLowerL ('/' :: intercalateL ['/'] (segs ++ [base ++ ".html".data])))
                .noItems none fm.order :: tail)
  | .cons (.dir name ifm sub) rest =>
    if "index".data.isPrefixOf name then walk segs rest
    else
      match walk (segs ++ [name]) sub with
      | .error e => .error e
      | .ok children =>
        match walk segs rest with
        | .error e => .error e
        | .ok tail =>
          .ok (SidebarItem.mk ifm.sidebar
                (toLowerL ('/' :: intercalateL ['/'] (segs ++ [name]) ++ ['/']))
                (.items (packItems (sortByOrder children))) (some false)
                ifm.order :: tail)

/-- `generate_doc_sidebar`: for every top-level directory not starting
with a dot or an underscore, walk it, sort the result by `order`, and
record it under `/<lower-cased name>/`. -/
def generate_doc_sidebar : FsEntryList → Except Str (List (Str × List SidebarItem))
  | .nil => .ok []
  | .cons (.file _ _) rest => generate_doc_sidebar rest
  | .cons (.dir name _ sub) rest =>
    if name.head? = some '.' ∨ name.head? = some '_' then
      generate_doc_sidebar rest
    else
      match walk [name] sub with
      | .error e => .error e
      | .ok json =>
        match generate_doc_sidebar rest with
        | .error e => .error e
        | .ok tail =>
          .ok (('/' :: toLowerL name ++ ['/'], sortByOrder json) :: tail)

/-- Adjacent-pairs check that a list is ascending in the `order` key. -/
def isSortedByOrder : List SidebarItem → Bool
  | [] => true
  | [_] => true
  | a :: b :: rest => decide (a.order ≤ b.order) && isSortedByOrder (b :: rest)

mutual
/-- Every children list attached anywhere inside the entry is sorted by
`order`. -/
def allItemsSorted : SidebarItem → Bool
  | .mk _ _ its _ _ => allItemsSortedItems its
/-- `allItemsSorted` through the optional children list. -/
def allItemsSortedItems : SidebarItems → Bool
  | .noItems => true
  | .items l => isSortedByOrder (unpackItems l) && allItemsSortedList l
/-- `allItemsSorted` over a nested entry list. -/
def allItemsSortedList : SidebarItemList → Bool
  | .nil => true
  | .cons i rest => allItemsSorted i && allItemsSortedList rest
end

/-- Top-level membership of an entry in a directory listing. -/
def memFs (e : FsEntry) : FsEntryList → Prop
  | .nil => False
  | .cons x rest => x = e ∨ memFs e rest

/- ### Helper lemmas: transliterator -/

/-- ASCII letters, digits and hyphen. -/
def latinChars : Str :=
  "ABCDEFGHIJKLMNOPQRSTUVWXYZabcdefghijklmnopqrstuvwxyz0123456789-".data

/-- ASCII lower-case letters, digits and hyphen: the characters of an
already-normalized slug. -/
def slugChars : Str := "abcdefghijklmnopqrstuvwxyz0123456789-".data

theorem slugChars_sub_latin : ∀ c ∈ slugChars, c ∈ latinChars := by decide

theorem latinChars_not_han : ∀ c ∈ latinChars, isHan c = false := by decide

theorem latinChars_toLower_not_upper :
    ∀ c ∈ latinChars, (Char.toLower c).isUpper = false := by decide

theorem slugChars_not_upper : ∀ c ∈ slugChars, c.isUpper = false := by decide

theorem segmentsAux_eq_nil (py : Char → Str) :
    ∀ (l : Str) (cur : Str), (∀ c ∈ l, isHan c = false) →
      segmentsAux py l cur = [] := by
  intro l
  induction l with
  | nil => intro cur _; rfl
  | cons c rest ih =>
    intro cur h
    rw [segmentsAux, h c (by simp)]
    exact ih _ (fun x hx => h x (by simp [hx]))

theorem segments_of_nonHan (py : Char → Str) (s : Str)
    (h : ∀ c ∈ s, isHan c = false) : segments py s = [s] := by
  rw [segments, segmentsAux_eq_nil py s [] h]
  rfl

theorem hyphenizeCaps_of_no_upper (s : Str) (h : ∀ c ∈ s, c.isUpper = false) :
    hyphenizeCaps s = s := by
  induction s with
  | nil => rfl
  | cons c rest ih =>
    rw [hyphenizeCaps, List.flatMap_cons, h c (by simp)]
    rw [hyphenizeCaps] at ih
    rw [ih (fun x hx => h x (by simp [hx]))]
    rfl

theorem hyphenizeCaps_cons_upper (c : Char) (rest : Str) (h : c.isUpper = true) :
    hyphenizeCaps (c :: rest) = '-' :: c :: hyphenizeCaps rest := by
  rw [hyphenizeCaps, List.flatMap_cons, h]
  rfl

theorem mem_hyphenizeCaps (s : Str) :
    ∀ x ∈ hyphenizeCaps s, x ∈ s ∨ x = '-' := by
  intro x hx
  rw [hyphenizeCaps] at hx
  obtain ⟨c, hc, hm⟩ := List.mem_flatMap.mp hx
  by_cases hu : c.isUpper = true
  · rw [if_pos hu] at hm
    rcases List.mem_cons.mp hm with h | h
    · right; exact h
    · left
      have := List.mem_singleton.mp h
      subst this; exact hc
  · rw [if_neg hu] at hm
    have := List.mem_singleton.mp hm
    subst this
    left; exact hc

theorem transformSegment_of_fixed (s : Str) (h : hyphenizeCaps s = s)
    (hl : s.head? ≠ some '-') : transformSegment s = s := by
  rw [transformSegment]
  rw [h]
  cases s with
  | nil => rfl
  | cons c t =>
    by_cases hc : c = '-'
    · subst hc; exact absurd rfl hl
    · split
      · next heq => exact absurd (List.cons_eq_cons.mp heq).1 hc
      · rfl

/- ### Claim C2 -/

/-- C2: counterexample — on the input `myTitle`, which contains the
interior capital `T`, the transliterator returns `my-Title`: the interior
capital is hyphen-prefixed but keeps its case, so the output is not the
claimed all-lower-case form. -/
theorem claim2_counterexample :
    to_pinyin_or_lowercase (fun _ => []) "myTitle".data = "my-Title".data ∧
    ("my-Title".data.any Char.isUpper = true) ∧
    "my-Title".data ≠ "my-title".data := by decide

/-- C2 (amended): in a Latin segment every capital letter is hyphen-split,
and the segment is lower-cased exactly when it begins with a capital: for
a title of ASCII letters, digits and hyphens whose first character is a
capital, the slug is the hyphenized title lower-cased, and contains no
capital letter (so `MyTitle` yields `my-title`); a segment starting in
lower case keeps the case of its interior capitals. -/
theorem claim2_amended_capitals (py : Char → Str) (c : Char) (rest : Str)
    (hchars : ∀ x ∈ c :: rest, x ∈ latinChars) (hc : c.isUpper = true) :
    to_pinyin_or_lowercase py (c :: rest) = toLowerL (c :: hyphenizeCaps rest) ∧
    ∀ x ∈ to_pinyin_or_lowercase py (c :: rest), x.isUpper = false := by
  have hseg : segments py (c :: rest) = [c :: rest] :=
    segments_of_nonHan py _ (fun x hx => latinChars_not_han x (hchars x hx))
  have hmain : to_pinyin_or_lowercase py (c :: rest) =
      toLowerL (c :: hyphenizeCaps rest) := by
    rw [to_pinyin_or_lowercase, hseg, List.map_singleton, intercalateL,
      transformSegment, hyphenizeCaps_cons_upper c rest hc]
    rfl
  refine ⟨hmain, ?_⟩
  intro x hx
  rw [hmain] at hx
  rw [toLowerL] at hx
  obtain ⟨y, hy, rfl⟩ := List.mem_map.mp hx
  rcases List.mem_cons.mp hy with h | hy2
  · rw [h]; exact latinChars_toLower_not_upper _ (hchars c (by simp))
  · rcases mem_hyphenizeCaps rest _ hy2 with h | h
    · exact latinChars_toLower_not_upper _ (hchars _ (by simp [h]))
    · subst h; decide

/-- C2 amended, at the concrete inputs of the claim: `MyTitle` (first
letter capital) is fully lower-cased to `my-title`. -/
theorem claim2_amended_capitals_witness :
    to_pinyin_or_lowercase (fun _ => []) "MyTitle".data = "my-title".data :=
  ((claim2_amended_capitals (fun _ => []) 'M' "yTitle".data (by decide)
    (by decide)).1).trans (by decide)

/- ### Claim C8 -/

/-- C8: counterexample — the slug `-a` consists only of ASCII lower-case
letters and hyphens, yet transliterating it strips the leading hyphen
(`strip_prefix('-')` fires on the hyphenized segment), returning `a`. -/
theorem claim8_counterexample :
    to_pinyin_or_lowercase (fun _ => []) "-a".data = "a".data ∧
    "a".data ≠ "-a".data := by decide

/-- C8 (amended): the transliterator is a pure function of its input (and
of the pinyin table), and it is idempotent on already-normalized slugs
that do not begin with a hyphen: any string of ASCII lower-case letters,
digits and hyphens whose first character is not a hyphen is returned
unchanged (a leading hyphen would be stripped). -/
theorem claim8_amended_idempotent (py : Char → Str) (s : Str)
    (hchars : ∀ x ∈ s, x ∈ slugChars) (hlead : s.head? ≠ some '-') :
    to_pinyin_or_lowercase py s = s := by
  have hfix : hyphenizeCaps s = s :=
    hyphenizeCaps_of_no_upper s (fun x hx => slugChars_not_upper x (hchars x hx))
  rw [to_pinyin_or_lowercase,
    segments_of_nonHan py s
      (fun x hx => latinChars_not_han x (slugChars_sub_latin x (hchars x hx))),
    List.map_singleton, intercalateL, transformSegment_of_fixed s hfix hlead]

/-- C8 amended, at a concrete input: the normalized slug `my-title2` is
returned unchanged. -/
theorem claim8_amended_idempotent_witness :
    to_pinyin_or_lowercase (fun _ => []) "my-title2".data = "my-title2".data :=
  claim8_amended_idempotent (fun _ => []) "my-title2".data (by decide) (by decide)

/- ### Claim C3 -/

/-- C3: the TOC path resolver, on the claim's input (after the caller
discarded the synthetic root entry): a level-1 `Doc` titled `Root` with a
non-empty `child_uuid` followed by a level-1 `Doc` titled `Child` with an
empty one, under namespace root slug `root-ns`, yields exactly the two
paths `./docs/root-ns/root/index.md` and `./docs/root-ns/root/child.md`
in that order — which, displayed relative to the working directory, are
`docs/root-ns/root/index.md` and `docs/root-ns/root/child.md`. -/
theorem claim3_resolver_example (py : Char → Str) :
    parse_toc_structure py "root-ns".data
        [Toc.doc "Root".data 1 "u1".data "ru".data 1,
         Toc.doc "Child".data 1 [] "cu".data 2] =
      [[".".data, "docs".data, "root-ns".data, "root".data, "index.md".data],
       [".".data, "docs".data, "root-ns".data, "root".data, "child.md".data]] ∧
    (parse_toc_structure py "root-ns".data
        [Toc.doc "Root".data 1 "u1".data "ru".data 1,
         Toc.doc "Child".data 1 [] "cu".data 2]).map displayNormalized =
      ["docs/root-ns/root/index.md".data, "docs/root-ns/root/child.md".data] := by
  constructor <;> rfl

/- ### Helper lemmas: schema parser -/

theorem mem_setKey (m : Schema) (k : Str) (v : List Str) :
    ∀ p ∈ setKey m k v, (p ∈ m ∧ p.1 ≠ k) ∨ p = (k, v) := by
  intro p hp
  rw [setKey] at hp
  split at hp
  · obtain ⟨q, hq, hpe⟩ := List.mem_map.mp hp
    by_cases hqk : q.1 = k
    · right; rw [if_pos hqk] at hpe; exact hpe.symm
    · left; rw [if_neg hqk] at hpe; rw [← hpe]; exact ⟨hq, hqk⟩
  · next ha =>
    rcases List.mem_append.mp hp with h | h
    · left
      refine ⟨h, fun hk => ha ?_⟩
      exact List.any_eq_true.mpr ⟨p, h, by simp [hk]⟩
    · right; exact List.mem_singleton.mp h

theorem mem_pushKey (m : Schema) (k : Str) (line : Str) :
    ∀ p ∈ pushKey m k line,
      ∃ q ∈ m, (q.1 ≠ k ∧ p = q) ∨ (q.1 = k ∧ p = (q.1, q.2 ++ [line])) := by
  intro p hp
  obtain ⟨q, hq, hpe⟩ := List.mem_map.mp hp
  refine ⟨q, hq, ?_⟩
  by_cases hqk : q.1 = k
  · right; exact ⟨hqk, by rw [← hpe, if_pos hqk]⟩
  · left; exact ⟨hqk, by rw [← hpe, if_neg hqk]⟩

/-- Invariant carried over the line loop: all stored values hold at most
one line. -/
def schemaSmall (m : Schema) : Prop := ∀ p ∈ m, p.2.length ≤ 1

/-- Invariant carried over the line loop: while a key is open, its stored
array is still empty. -/
def openKeyEmpty (m : Schema) (ck : Str) : Prop :=
  ¬ck.isEmpty = true → ∀ p ∈ m, p.1 = ck → p.2 = []

theorem parseSchemaGo_small :
    ∀ (ls : List Str) (ck : Str) (m : Schema),
      schemaSmall m → openKeyEmpty m ck → schemaSmall (parseSchemaGo ls ck m) := by
  intro ls
  induction ls with
  | nil => intro ck m h1 _; exact h1
  | cons line rest ih =>
    intro ck m h1 h2
    rw [parseSchemaGo]
    split
    · exact ih ck m h1 h2
    · split
      · apply ih
        · intro p hp
          rcases mem_setKey m _ [] p hp with ⟨hm, _⟩ | he
          · exact h1 p hm
          · rw [he]; simp
        · intro _ p hp hk
          rcases mem_setKey m _ [] p hp with ⟨_, hne2⟩ | he
          · exact absurd hk hne2
          · rw [he]
      · split
        · exact ih ck m h1 h2
        · next hck =>
          apply ih
          · intro p hp
            obtain ⟨q, hq, hcase⟩ := mem_pushKey m ck line p hp
            rcases hcase with ⟨_, he⟩ | ⟨hqk, he⟩
            · rw [he]; exact h1 q hq
            · rw [he, h2 hck q hq hqk]; simp
          · intro hne
            exact absurd rfl hne

theorem splitDashes_ne_nil : ∀ s, splitDashes s ≠ [] := by
  intro s
  induction s using splitDashes.induct with
  | case1 rest _ => rw [splitDashes]; simp
  | case2 c rest h ih =>
    rw [splitDashes.eq_2 c rest h]
    cases hs : splitDashes rest with
    | nil => exact absurd hs ih
    | cons a b => rw [consHead]; simp
  | case3 => rw [splitDashes]; simp

theorem splitDashes_singleton : ∀ (s x : Str), splitDashes s = [x] → x = s := by
  intro s
  induction s using splitDashes.induct with
  | case1 rest _ =>
    intro x h
    rw [splitDashes] at h
    exact absurd (List.cons_eq_cons.mp h).2 (splitDashes_ne_nil rest)
  | case2 c rest h ih =>
    intro x hx
    rw [splitDashes.eq_2 c rest h] at hx
    cases hs : splitDashes rest with
    | nil => exact absurd hs (splitDashes_ne_nil rest)
    | cons a b =>
      rw [hs, consHead] at hx
      obtain ⟨h1, h2⟩ := List.cons_eq_cons.mp hx
      subst h2
      rw [← h1, ih a hs]
  | case3 =>
    intro x h
    rw [splitDashes] at h
    exact (List.cons_eq_cons.mp h).1.symm

/- ### Claim C5 -/

/-- C5: counterexample — on the claim's own example input the body kept by
`filter_schema` is `"text\n"`, not `"text"`: the split on `---` keeps the
newline that precedes the delimiter in the body. -/
theorem claim5_counterexample :
    (filter_schema "text\n---\n## 首页介绍\nHello\n".data "p".data []).1 =
      "text\n".data ∧
    "text\n".data ≠ "text".data := by decide

/-- C5 (amended): every section key in any parsed schema block holds a
list of at most one captured line (a `##` line opens a key bound to a
fresh empty array, the next captured line fills it and resets the key,
blank and anchor-tag lines are skipped); and the example body
`"text\n---\n## 首页介绍\nHello\n"` splits into body `"text\n"` (the
newline before the delimiter stays in the body) and the schema map
mapping `首页介绍` to the single line `Hello`. -/
theorem claim5_amended_schema :
    (∀ text k v, (k, v) ∈ parse_schema text → v.length ≤ 1) ∧
    filter_schema "text\n---\n## 首页介绍\nHello\n".data "p".data [] =
      ("text\n".data, [("p".data, [("首页介绍".data, ["Hello".data])])]) := by
  constructor
  · intro text k v hm
    rw [parse_schema] at hm
    exact parseSchemaGo_small (rustLines text) [] []
      (fun p hp => absurd hp (List.not_mem_nil p))
      (fun _ p hp _ => absurd hp (List.not_mem_nil p)) (k, v) hm
  · decide

/-- C5 amended, applied at a concrete schema block: the single captured
line under a key indeed has length at most one. -/
theorem claim5_amended_schema_witness : (["Hello".data] : List Str).length ≤ 1 :=
  claim5_amended_schema.1 "## A\nHello\nWorld".data "A".data ["Hello".data]
    (by decide)

/- ### Claim C9 -/

/-- The index of the last occurrence of `pat` as a substring of `s`. -/
def lastOccIdx (pat s : Str) : Option Nat :=
  ((List.range (s.length + 1)).filter
    (fun i => pat.isPrefixOf (s.drop i))).getLast?

/-- The text after the last occurrence of `pat` in `s` (the claim's
reading of the schema block); `s` itself when `pat` does not occur. -/
def suffixAfterLastOcc (pat s : Str) : Str :=
  match lastOccIdx pat s with
  | some i => s.drop (i + pat.length)
  | none => s

/-- C9: counterexample — in `"x----## A\nv"` the last occurrence of `---`
starts inside the run of four dashes, so the text after it is
`"## A\nv"`, whose parse holds the section `A`; but the split scans
non-overlapping matches left to right, leaving `"-## A\nv"` as the last
piece, whose parse is empty — the stored schema differs from the claim. -/
theorem claim9_counterexample :
    (filter_schema "x----## A\nv".data "p".data []).2 =
      [("p".data, ([] : Schema))] ∧
    parse_schema (suffixAfterLastOcc "---".data "x----## A\nv".data) =
      [("A".data, ["v".data])] ∧
    ([("p".data, ([] : Schema))] : SchemaTable) ≠
      [("p".data, [("A".data, ["v".data])])] :=
  ⟨by decide, by decide, by decide⟩

/-- C9 (amended): `filter_schema` splits the text at the non-overlapping
occurrences of `---` found scanning left to right; when there are at
least two pieces the final piece is parsed as the schema block and stored
under the document path while the earlier pieces are re-joined with `---`
as the body (so interior occurrences survive in the body); when the split
yields a single piece (the text contains no occurrence) the text is
returned unchanged and the table is untouched. -/
theorem claim9_amended_split (text path : Str) (schemas : SchemaTable) :
    (2 ≤ (splitDashes text).length →
      filter_schema text path schemas =
        (intercalateL "---".data (splitDashes text).dropLast,
         tableInsert schemas path
           (parse_schema ((splitDashes text).getLastD [])))) ∧
    ((splitDashes text).length = 1 →
      filter_schema text path schemas = (text, schemas)) := by
  constructor
  · intro h2
    rw [filter_schema]
    rcases hsp : splitDashes text with _ | ⟨x, _ | ⟨y, rest⟩⟩
    · rw [hsp] at h2; simp at h2
    · rw [hsp] at h2; simp at h2
    · rfl
  · intro h1
    rcases hsp : splitDashes text with _ | ⟨x, _ | ⟨y, rest⟩⟩
    · exact absurd hsp (splitDashes_ne_nil text)
    · have hx := splitDashes_singleton text x hsp
      rw [filter_schema, hsp, hx]
    · rw [hsp] at h1; simp at h1

/-- C9 amended, applied at `"a---b---c"`: the interior occurrence is
preserved in the body and the final piece is the schema block. -/
theorem claim9_amended_split_witness :
    filter_schema "a---b---c".data "p".data [] =
      ("a---b".data, [("p".data, ([] : Schema))]) :=
  ((claim9_amended_split "a---b---c".data "p".data []).1 (by decide)).trans
    (by decide)

/- ### Claim C6 -/

/-- C6: the remote-image-inlining pass sniffs the fetched payload — bytes
beginning with the `<svg` magic replace the image node with an HTML block
holding exactly those bytes; any other payload is decoded by the image
codec, re-encoded as PNG, and the node stays an image node whose URL
becomes the `data:image/png;base64,` data URI of those PNG bytes. -/
theorem claim6_image_inlining (codec : ImageCodec)
    (fetch : Str → Except Str (List Nat)) (url : Str) (pu : ParsedUrl)
    (bytes : List Nat) (hp : parseUrl url = some pu)
    (hf : fetch url = .ok bytes) :
    (svgMagic.isPrefixOf bytes = true →
      convert_image codec fetch (.image url) = ([url], .htmlBlock 7 bytes)) ∧
    (svgMagic.isPrefixOf bytes = false → ∀ img, codec.decode bytes = .ok img →
      convert_image codec fetch (.image url) =
        ([url], .image ("data:image/png;base64,".data ++
          base64Encode (codec.encodePng img)))) := by
  constructor
  · intro hsvg
    simp [convert_image, hp, hf, hsvg]
  · intro hsvg img hdec
    simp [convert_image, hp, hf, hsvg, hdec, image_to_base64]

/-- The identity image codec used to witness C6. -/
def wCodec : ImageCodec := ⟨fun b => .ok b, fun b => b⟩

/-- A fetcher answering with a small SVG payload. -/
def wFetchSvg : Str → Except Str (List Nat) :=
  fun _ => .ok (strBytes "<svg></svg>".data)

/-- A fetcher answering with a small non-SVG payload. -/
def wFetchRaw : Str → Except Str (List Nat) := fun _ => .ok [1, 2, 3]

/-- C6 at concrete inputs: an SVG payload becomes a verbatim HTML block,
and a raw payload becomes a base64 PNG data URI on the image node. -/
theorem claim6_image_inlining_witness :
    convert_image wCodec wFetchSvg (.image "https://a.com/x.svg".data) =
      (["https://a.com/x.svg".data], .htmlBlock 7 (strBytes "<svg></svg>".data)) ∧
    convert_image wCodec wFetchRaw (.image "https://a.com/x.png".data) =
      (["https://a.com/x.png".data],
        .image ("data:image/png;base64,".data ++ base64Encode [1, 2, 3])) :=
  ⟨(claim6_image_inlining wCodec wFetchSvg "https://a.com/x.svg".data
      ⟨"https".data, "a.com".data, ["x.svg".data]⟩ (strBytes "<svg></svg>".data)
      (by decide) rfl).1 (by decide),
   (claim6_image_inlining wCodec wFetchRaw "https://a.com/x.png".data
      ⟨"https".data, "a.com".data, ["x.png".data]⟩ [1, 2, 3]
      (by decide) rfl).2 (by decide) [1, 2, 3] rfl⟩

/- ### Claim C4 -/

theorem articlesGet_mem :
    ∀ (articles : Articles) (slug p), articlesGet articles slug = some p →
      ∃ k, (k, p) ∈ articles := by
  intro articles
  induction articles with
  | nil => intro slug p h; cases h
  | cons q rest ih =>
    intro slug p h
    cases q with
    | mk k v =>
      rw [articlesGet] at h
      split at h
      · exact ⟨k, by rw [← Option.some_inj.mp h]; exact List.mem_cons_self _ _⟩
      · obtain ⟨k2, hk⟩ := ih slug p h
        exact ⟨k2, List.mem_cons_of_mem _ hk⟩

theorem stripDocsRoot_of_good (rest : List Str) :
    stripDocsRoot (".".data :: "docs".data :: rest) = some rest := by
  rw [stripDocsRoot]
  simp

/-- Under the generator's invariant that every emitted article path
starts with the `./docs` output root, `convert_link` never hits the
`strip_prefix` unwrap. -/
theorem convert_link_no_panic (articles : Articles)
    (hgood : ∀ p ∈ articles, ∃ rest, p.2 = ".".data :: "docs".data :: rest)
    (v : NodeValue) : convert_link articles v ≠ .panicked := by
  intro hcon
  cases v with
  | link url =>
    rw [convert_link] at hcon
    dsimp only at hcon
    cases hp : parseUrl url with
    | none => rw [hp] at hcon; cases hcon
    | some pu =>
      rw [hp] at hcon
      dsimp only at hcon
      cases hd : urlDomain pu with
      | none => rw [hd] at hcon; cases hcon
      | some domain =>
        rw [hd] at hcon
        dsimp only at hcon
        cases hcp : containsL "codepen".data domain with
        | true => rw [if_pos hcp] at hcon; cases hcon
        | false =>
          rw [if_neg (by simp [hcp])] at hcon
          cases hfn : pathFileName pu.pathSegs with
          | none => rw [hfn] at hcon; cases hcon
          | some slug =>
            rw [hfn] at hcon
            dsimp only at hcon
            cases hget : articlesGet articles slug with
            | none => rw [hget] at hcon; cases hcon
            | some pth =>
              rw [hget] at hcon
              dsimp only at hcon
              obtain ⟨k, hk⟩ := articlesGet_mem articles slug pth hget
              obtain ⟨rest, hrest⟩ := hgood (k, pth) hk
              rw [show pth = (k, pth).2 from rfl, hrest,
                stripDocsRoot_of_good] at hcon
              cases hcon
  | document => exact LinkResult.noConfusion hcon
  | text s => exact LinkResult.noConfusion hcon
  | image u2 => exact LinkResult.noConfusion hcon
  | htmlBlock b l => exact LinkResult.noConfusion hcon
  | heading lv => exact LinkResult.noConfusion hcon

/-- C4: a link node whose URL does not parse, or parses without a
resolvable domain, or whose slug (the last URL path segment) is absent
from the article index, makes `convert_link` fail before any mutation, so
the traversal — which discards per-node errors — leaves the node's value,
URL and children exactly as they were; and, whenever every article path
carries the `./docs` root, the whole-document link pass always succeeds. -/
theorem claim4_link_errors_swallowed :
    (∀ (articles : Articles) (url : Str),
      (parseUrl url = none ∨
       (∃ pu, parseUrl url = some pu ∧ pu.host.isEmpty = true) ∨
       (∃ pu slug, parseUrl url = some pu ∧ pu.host.isEmpty = false ∧
          containsL "codepen".data pu.host = false ∧
          pathFileName pu.pathSegs = some slug ∧
          articlesGet articles slug = none)) →
      convert_link articles (.link url) = .unchanged) ∧
    (∀ (articles : Articles) (url : Str) (cs : NodeList) (cs2 : NodeList),
      convert_link articles (.link url) = .unchanged →
      iter_linkList articles cs = .ok cs2 →
      iter_link articles (.mk (.link url) cs) = .ok (.mk (.link url) cs2)) ∧
    (∀ articles : Articles,
      (∀ p ∈ articles, ∃ rest, p.2 = ".".data :: "docs".data :: rest) →
      ∀ doc : Node, ∃ out, iter_link articles doc = .ok out) := by
  refine ⟨?_, ?_, ?_⟩
  · intro articles url h
    rcases h with hp | ⟨pu, hp, hh⟩ | ⟨pu, slug, hp, hh, hcp, hfn, hget⟩
    · simp [convert_link, hp]
    · simp [convert_link, hp, urlDomain, hh]
    · simp [convert_link, hp, urlDomain, hh, hcp, hfn, hget]
  · intro articles url cs cs2 hconv hlist
    rw [iter_link, hconv, hlist]
  · intro articles hgood
    have hmk : ∀ (v : NodeValue) (cs : NodeList),
        (∃ out, iter_linkList articles cs = .ok out) →
        ∃ out, iter_link articles (.mk v cs) = .ok out := by
      intro v cs ih
      rw [iter_link]
      cases hcl : convert_link articles v with
      | unchanged =>
        obtain ⟨o, ho⟩ := ih
        rw [ho]
        exact ⟨_, rfl⟩
      | panicked => exact absurd hcl (convert_link_no_panic articles hgood v)
      | toHtml lit => exact ⟨_, rfl⟩
      | toLink u =>
        cases cs with
        | nil => exact ⟨_, rfl⟩
        | cons c cs' =>
          obtain ⟨o, ho⟩ := ih
          rw [iter_linkList] at ho
          dsimp only
          cases hc : iter_link articles c with
          | error e => rw [hc] at ho; cases ho
          | ok c2 => exact ⟨_, rfl⟩
    have hnil : ∃ out, iter_linkList articles .nil = .ok out := ⟨_, rfl⟩
    have hcons : ∀ (n : Node) (ns : NodeList),
        (∃ out, iter_link articles n = .ok out) →
        (∃ out, iter_linkList articles ns = .ok out) →
        ∃ out, iter_linkList articles (.cons n ns) = .ok out := by
      intro n ns ihn ihns
      obtain ⟨o1, h1⟩ := ihn
      obtain ⟨o2, h2⟩ := ihns
      rw [iter_linkList, h1, h2]
      exact ⟨_, rfl⟩
    exact @Node.rec (fun n => ∃ out, iter_link articles n = .ok out)
      (fun l => ∃ out, iter_linkList articles l = .ok out) hmk hnil hcons

/-- C4 at concrete inputs: a link to an unresolved slug, with a text
child, passes through the link pass byte-for-byte unchanged. -/
theorem claim4_link_errors_swallowed_witness :
    iter_link [("abc".data, [".".data, "docs".data, "ns".data, "foo.md".data])]
      (.mk (.link "https://x.com/ns/zzz".data)
        (.cons (.mk (.text "t".data) .nil) .nil)) =
    .ok (.mk (.link "https://x.com/ns/zzz".data)
        (.cons (.mk (.text "t".data) .nil) .nil)) :=
  claim4_link_errors_swallowed.2.1 _ _ _ _
    (claim4_link_errors_swallowed.1 _ _ (Or.inr (Or.inr
      ⟨⟨"https".data, "x.com".data, ["ns".data, "zzz".data]⟩, "zzz".data,
        by decide, by decide, by decide, by decide, by decide⟩)))
    rfl

/- ### Claim C1 -/

theorem convert_image_log (codec : ImageCodec)
    (fetch : Str → Except Str (List Nat)) (v : NodeValue) :
    (convert_image codec fetch v).1 = imageUrlOf v := by
  cases v with
  | image url =>
    cases hp : parseUrl url with
    | none => simp [convert_image, imageUrlOf, hp]
    | some pu =>
      cases hf : fetch url with
      | error e => simp [convert_image, imageUrlOf, hp, hf]
      | ok bytes =>
        cases hsvg : svgMagic.isPrefixOf bytes with
        | true => simp [convert_image, imageUrlOf, hp, hf, hsvg]
        | false =>
          cases hdec : codec.decode bytes with
          | error e => simp [convert_image, imageUrlOf, hp, hf, hsvg, hdec]
          | ok img => simp [convert_image, imageUrlOf, hp, hf, hsvg, hdec]
  | document => rfl
  | text s => rfl
  | link u => rfl
  | htmlBlock b l => rfl
  | heading lv => rfl

theorem iter_image_log (codec : ImageCodec)
    (fetch : Str → Except Str (List Nat)) :
    (∀ n : Node, (iter_image codec fetch n).1 = collectImageUrls n) ∧
    (∀ l : NodeList, (iter_imageList codec fetch l).1 = collectImageUrlsList l) := by
  have hmk : ∀ (v : NodeValue) (cs : NodeList),
      (iter_imageList codec fetch cs).1 = collectImageUrlsList cs →
      (iter_image codec fetch (.mk v cs)).1 = collectImageUrls (.mk v cs) := by
    intro v cs ih
    rw [iter_image, collectImageUrls]
    dsimp only
    rw [convert_image_log, ih]
  have hnil : (iter_imageList codec fetch .nil).1 = collectImageUrlsList .nil := rfl
  have hcons : ∀ (n : Node) (ns : NodeList),
      (iter_image codec fetch n).1 = collectImageUrls n →
      (iter_imageList codec fetch ns).1 = collectImageUrlsList ns →
      (iter_imageList codec fetch (.cons n ns)).1 =
        collectImageUrlsList (.cons n ns) := by
    intro n ns ihn ihns
    rw [iter_imageList, collectImageUrlsList]
    dsimp only
    rw [ihn, ihns]
  exact
    ⟨@Node.rec (fun n => (iter_image codec fetch n).1 = collectImageUrls n)
        (fun l => (iter_imageList codec fetch l).1 = collectImageUrlsList l)
        hmk hnil hcons,
      @NodeList.rec (fun n => (iter_image codec fetch n).1 = collectImageUrls n)
        (fun l => (iter_imageList codec fetch l).1 = collectImageUrlsList l)
        hmk hnil hcons⟩

/-- A document whose codepen link wraps a remote image, used to separate
the two pass orders. -/
def c1Doc : Node :=
  .mk .document
    (.cons (.mk (.link "https://codepen.io/x".data)
      (.cons (.mk (.image "https://img.example/p.png".data) .nil) .nil)) .nil)

/-- A fetcher answering every URL with a small raw payload. -/
def c1Fetch : Str → Except Str (List Nat) := fun _ => .ok [1, 2, 3]

/-- C1: counterexample — on a document whose embeddable (codepen) link
contains an image, the pass order of `write_markdown` fetches that image:
the image pass runs first over the whole tree, so the image beneath the
embeddable link is fetched and inlined before the link is replaced by the
iframe block, whereas under the spec's pass order (embed conversion
first) the image is detached before the image pass and never fetched. -/
theorem claim1_counterexample :
    (write_markdown_passes wCodec c1Fetch [] c1Doc).1 =
      ["https://img.example/p.png".data] ∧
    (spec_pipeline wCodec c1Fetch [] c1Doc).1 = [] ∧
    (["https://img.example/p.png".data] : List Str) ≠ [] := by
  refine ⟨by decide, by decide, by decide⟩

/-- C1 (amended): `write_markdown` applies remote-image inlining as the
first tree pass and a single second pass that performs embed-widget
conversion and internal-link resolution together; consequently the URL of
every image node with a parseable URL — including any image sitting
beneath an embeddable-widget link — is fetched during the image pass,
before any link is converted. -/
theorem claim1_amended_pass_order (codec : ImageCodec)
    (fetch : Str → Except Str (List Nat)) (articles : Articles) (doc : Node) :
    (write_markdown_passes codec fetch articles doc).1 = collectImageUrls doc ∧
    (write_markdown_passes codec fetch articles doc).2 =
      iter_link articles (iter_image codec fetch doc).2 := by
  exact ⟨(iter_image_log codec fetch).1 doc, rfl⟩

/- ### Helper lemmas: sidebar sorting -/

theorem insertByOrder_head :
    ∀ (ys : List SidebarItem) (x w : SidebarItem) (ws : List SidebarItem),
      insertByOrder x ys = w :: ws → w = x ∨ ys.head? = some w := by
  intro ys x w ws h
  cases ys with
  | nil =>
    rw [insertByOrder] at h
    exact Or.inl (List.cons_eq_cons.mp h).1.symm
  | cons z zs =>
    rw [insertByOrder] at h
    split at h
    · exact Or.inl (List.cons_eq_cons.mp h).1.symm
    · exact Or.inr (by rw [List.head?_cons, (List.cons_eq_cons.mp h).1])

theorem isSorted_insertByOrder :
    ∀ (l : List SidebarItem) (x : SidebarItem),
      isSortedByOrder l = true → isSortedByOrder (insertByOrder x l) = true := by
  intro l
  induction l with
  | nil => intro x _; rfl
  | cons y ys ih =>
    intro x h
    have hys : isSortedByOrder ys = true := by
      cases ys with
      | nil => rfl
      | cons z zs =>
        rw [isSortedByOrder, Bool.and_eq_true] at h
        exact h.2
    rw [insertByOrder]
    split
    · next hle =>
      rw [isSortedByOrder, Bool.and_eq_true]
      exact ⟨decide_eq_true hle, h⟩
    · next hle =>
      have hyx : y.order ≤ x.order := Nat.le_of_not_le hle
      cases hins : insertByOrder x ys with
      | nil => rfl
      | cons w ws =>
        rw [isSortedByOrder, Bool.and_eq_true]
        constructor
        · rcases insertByOrder_head ys x w ws hins with hwx | hw
          · rw [hwx]; exact decide_eq_true hyx
          · cases ys with
            | nil => cases hw
            | cons z zs =>
              rw [List.head?_cons, Option.some_inj] at hw
              rw [isSortedByOrder, Bool.and_eq_true] at h
              exact decide_eq_true (by rw [← hw]; exact of_decide_eq_true h.1)
        · have hrec := ih x hys
          rw [hins] at hrec
          exact hrec

theorem isSorted_sortByOrder (l : List SidebarItem) :
    isSortedByOrder (sortByOrder l) = true := by
  induction l with
  | nil => rfl
  | cons x xs ih =>
    rw [sortByOrder]
    exact isSorted_insertByOrder _ x ih

theorem mem_insertByOrder :
    ∀ (l : List SidebarItem) (x y : SidebarItem),
      y ∈ insertByOrder x l → y = x ∨ y ∈ l := by
  intro l
  induction l with
  | nil => intro x y h; exact Or.inl (List.mem_singleton.mp h)
  | cons z zs ih =>
    intro x y h
    rw [insertByOrder] at h
    split at h
    · rcases List.mem_cons.mp h with h1 | h1
      · exact Or.inl h1
      · exact Or.inr h1
    · rcases List.mem_cons.mp h with h1 | h1
      · exact Or.inr (by rw [h1]; exact List.mem_cons_self _ _)
      · rcases ih x y h1 with h2 | h2
        · exact Or.inl h2
        · exact Or.inr (List.mem_cons_of_mem _ h2)

theorem mem_sortByOrder :
    ∀ (l : List SidebarItem) (y : SidebarItem), y ∈ sortByOrder l → y ∈ l := by
  intro l
  induction l with
  | nil => intro y h; exact h
  | cons x xs ih =>
    intro y h
    rw [sortByOrder] at h
    rcases mem_insertByOrder _ x y h with h1 | h1
    · rw [h1]; exact List.mem_cons_self _ _
    · exact List.mem_cons_of_mem _ (ih y h1)

theorem unpack_pack (l : List SidebarItem) : unpackItems (packItems l) = l := by
  induction l with
  | nil => rfl
  | cons x xs ih => rw [packItems, unpackItems, ih]

theorem allItemsSortedList_pack (l : List SidebarItem) :
    allItemsSortedList (packItems l) = l.all allItemsSorted := by
  induction l with
  | nil => rfl
  | cons x xs ih => rw [packItems, allItemsSortedList, ih, List.all_cons]

theorem walk_allSorted :
    ∀ (segs : List Str) (fs : FsEntryList) (out : List SidebarItem),
      walk segs fs = .ok out → ∀ i ∈ out, allItemsSorted i = true := by
  intro segs fs
  induction segs, fs using walk.induct with
  | case1 segs =>
    intro out h i hi
    rw [walk] at h
    rw [← Except.ok.inj h] at hi
    cases hi
  | case2 segs name fm rest h1 ih =>
    intro out h i hi
    rw [walk, if_pos h1] at h
    exact ih out h i hi
  | case3 segs name fm rest h1 h2 =>
    intro out h i hi
    rw [walk, if_neg h1, h2] at h
    cases h
  | case4 segs name fm rest h1 base r2 hsp e herr ih =>
    intro out h i hi
    rw [walk, if_neg h1, hsp, herr] at h
    cases h
  | case5 segs name fm rest h1 base r2 hsp tail hrest ih =>
    intro out h i hi
    rw [walk, if_neg h1, hsp, hrest] at h
    rw [← Except.ok.inj h] at hi
    rcases List.mem_cons.mp hi with hh | hh
    · rw [hh]; rfl
    · exact ih tail hrest i hh
  | case6 segs name ifm sub rest h1 ih =>
    intro out h i hi
    rw [walk, if_pos h1] at h
    exact ih out h i hi
  | case7 segs name ifm sub rest h1 e hsub ihsub =>
    intro out h i hi
    rw [walk, if_neg h1, hsub] at h
    cases h
  | case8 segs name ifm sub rest h1 children hsub e herr ihsub ihrest =>
    intro out h i hi
    rw [walk, if_neg h1, hsub, herr] at h
    cases h
  | case9 segs name ifm sub rest h1 children hsub tail hrest ihsub ihrest =>
    intro out h i hi
    rw [walk, if_neg h1, hsub, hrest] at h
    rw [← Except.ok.inj h] at hi
    rcases List.mem_cons.mp hi with hh | hh
    · rw [hh, allItemsSorted, allItemsSortedItems, Bool.and_eq_true]
      constructor
      · rw [unpack_pack]
        exact isSorted_sortByOrder children
      · rw [allItemsSortedList_pack, List.all_eq_true]
        intro y hy
        exact ihsub children hsub y (mem_sortByOrder children y hy)
    · exact ihrest tail hrest i hh

theorem generate_allSorted :
    ∀ (fs : FsEntryList) (out : List (Str × List SidebarItem)),
      generate_doc_sidebar fs = .ok out →
      ∀ p ∈ out, isSortedByOrder p.2 = true ∧ p.2.all allItemsSorted = true := by
  intro fs
  induction fs using generate_doc_sidebar.induct with
  | case1 =>
    intro out h p hp
    rw [generate_doc_sidebar] at h
    rw [← Except.ok.inj h] at hp
    cases hp
  | case2 name fm rest ih =>
    intro out h p hp
    rw [generate_doc_sidebar] at h
    exact ih out h p hp
  | case3 name ifm sub rest h1 ih =>
    intro out h p hp
    rw [generate_doc_sidebar, if_pos h1] at h
    exact ih out h p hp
  | case4 name ifm sub rest h1 e hw =>
    intro out h p hp
    rw [generate_doc_sidebar, if_neg h1, hw] at h
    cases h
  | case5 name ifm sub rest h1 json hw e hrest ih =>
    intro out h p hp
    rw [generate_doc_sidebar, if_neg h1, hw, hrest] at h
    cases h
  | case6 name ifm sub rest h1 json hw tail hrest ih =>
    intro out h p hp
    rw [generate_doc_sidebar, if_neg h1, hw, hrest] at h
    rw [← Except.ok.inj h] at hp
    rcases List.mem_cons.mp hp with hh | hh
    · rw [hh]
      refine ⟨isSorted_sortByOrder json, ?_⟩
      rw [List.all_eq_true]
      intro y hy
      exact walk_allSorted [name] sub json hw y (mem_sortByOrder json y hy)
    · exact ih tail hrest p hh

/- ### Claim C7 -/

/-- One namespace directory holding three files with `order` values
3, 1, 2, in that read order. -/
def exampleFs : FsEntryList :=
  .cons (.dir "ns".data ⟨"NS".data, 0⟩
    (.cons (.file "a.md".data ⟨"A".data, 3⟩)
      (.cons (.file "b.md".data ⟨"B".data, 1⟩)
        (.cons (.file "c.md".data ⟨"C".data, 2⟩) .nil)))) .nil

/-- The navigation entries the walk builds for `exampleFs`, sorted by
`order`. -/
def exampleOut : List SidebarItem :=
  [.mk "B".data "/ns/b.html".data .noItems none 1,
   .mk "C".data "/ns/c.html".data .noItems none 2,
   .mk "A".data "/ns/a.html".data .noItems none 3]

/-- C7: every children list the sidebar builder attaches to a parent node
is sorted ascending by `order` (recursively, throughout the built tree),
the top-level entries of each namespace are sorted by `order` before
being recorded, and on a directory holding files with `order` values
[3, 1, 2] the built entries appear in order [1, 2, 3]. -/
theorem claim7_sidebar_sorted :
    (∀ (segs : List Str) (fs : FsEntryList) (out : List SidebarItem),
      walk segs fs = .ok out → ∀ i ∈ out, allItemsSorted i = true) ∧
    (∀ (fs : FsEntryList) (out : List (Str × List SidebarItem)),
      generate_doc_sidebar fs = .ok out →
      ∀ p ∈ out, isSortedByOrder p.2 = true ∧ p.2.all allItemsSorted = true) ∧
    generate_doc_sidebar exampleFs = .ok [("/ns/".data, exampleOut)] ∧
    exampleOut.map SidebarItem.order = [1, 2, 3] :=
  ⟨walk_allSorted, generate_allSorted, rfl, rfl⟩

/-- C7 at the concrete example: the per-namespace list built from `order`
values [3, 1, 2] is sorted. -/
theorem claim7_sidebar_sorted_witness :
    isSortedByOrder exampleOut = true ∧ exampleOut.all allItemsSorted = true :=
  claim7_sidebar_sorted.2.1 exampleFs [("/ns/".data, exampleOut)]
    claim7_sidebar_sorted.2.2.1 ("/ns/".data, exampleOut)
    (List.mem_singleton.mpr rfl)

/- ### Claim C10 -/

theorem splitOnceDot_eq_none :
    ∀ name : Str, name.contains '.' = false → splitOnceDot name = none := by
  intro name
  induction name with
  | nil => intro _; rfl
  | cons c rest ih =>
    intro h
    rw [List.contains_cons, Bool.or_eq_false_iff] at h
    have hne : ¬c = '.' := by
      intro hc
      rw [hc] at h
      simp at h
    rw [splitOnceDot, if_neg hne, ih h.2]
    rfl

/-- C10: the sidebar walk is total only when every plain non-index file
name contains a dot — a directory holding a regular file whose name has
no dot (and does not start with `index`) drives the leaf branch into the
`split_once('.')` unwrap, and the walk fails instead of producing a
navigation entry. -/
theorem claim10_walk_panics :
    ∀ (fs : FsEntryList) (segs : List Str),
      (∃ name fm, memFs (.file name fm) fs ∧
        "index".data.isPrefixOf name = false ∧ name.contains '.' = false) →
      ∃ e, walk segs fs = .error e := by
  refine @FsEntryList.rec (fun _ => True)
    (fun fs => ∀ segs,
      (∃ name fm, memFs (.file name fm) fs ∧
        "index".data.isPrefixOf name = false ∧ name.contains '.' = false) →
      ∃ e, walk segs fs = .error e)
    (fun _ _ => trivial) (fun _ _ _ _ => trivial) ?_ ?_
  · intro segs h
    obtain ⟨name, fm, hmem, _, _⟩ := h
    rw [memFs] at hmem
    cases hmem
  · intro e ihe es ihes segs h
    obtain ⟨name, fm, hmem, hidx, hdot⟩ := h
    rw [memFs] at hmem
    rcases hmem with heq | hmem2
    · subst heq
      exact ⟨name, by
        rw [walk, if_neg (by simp [hidx]), splitOnceDot_eq_none name hdot]⟩
    · obtain ⟨e2, he2⟩ := ihes segs ⟨name, fm, hmem2, hidx, hdot⟩
      cases e with
      | file n2 f2 =>
        by_cases hidx2 : "index".data.isPrefixOf n2 = true
        · exact ⟨e2, by rw [walk, if_pos hidx2, he2]⟩
        · cases hsp : splitOnceDot n2 with
          | none => exact ⟨n2, by rw [walk, if_neg hidx2, hsp]⟩
          | some pr =>
            cases pr with
            | mk base r2 => exact ⟨e2, by rw [walk, if_neg hidx2, hsp, he2]⟩
      | dir n2 f2 sub =>
        by_cases hidx2 : "index".data.isPrefixOf n2 = true
        · exact ⟨e2, by rw [walk, if_pos hidx2, he2]⟩
        · cases hsub : walk (segs ++ [n2]) sub with
          | error esub => exact ⟨esub, by rw [walk, if_neg hidx2, hsub]⟩
          | ok ch => exact ⟨e2, by rw [walk, if_neg hidx2, hsub, he2]⟩

/-- A directory holding the dot-less regular file `foo`. -/
def exampleBadFs : FsEntryList := .cons (.file "foo".data ⟨"F".data, 0⟩) .nil

/-- C10 at a concrete input: walking a directory that contains the
dot-less file `foo` fails. -/
theorem claim10_walk_panics_witness : ∃ e, walk [] exampleBadFs = .error e :=
  claim10_walk_panics exampleBadFs []
    ⟨"foo".data, ⟨"F".data, 0⟩, Or.inl rfl, by decide, by decide⟩

/-- C3 applied at the empty pinyin table (the example titles are Latin,
so the table is never consulted). -/
theorem claim3_resolver_example_witness :
    (parse_toc_structure (fun _ => []) "root-ns".data
        [Toc.doc "Root".data 1 "u1".data "ru".data 1,
         Toc.doc "Child".data 1 [] "cu".data 2]).map displayNormalized =
      ["docs/root-ns/root/index.md".data,
       "docs/root-ns/root/child.md".data] :=
  (claim3_resolver_example (fun _ => [])).2

/-- C1 amended, applied at the concrete document of the counterexample:
the fetch log of the pass sequence is exactly the pre-order image URLs. -/
theorem claim1_amended_pass_order_witness :
    (write_markdown_passes wCodec c1Fetch [] c1Doc).1 =
      collectImageUrls c1Doc :=
  (claim1_amended_pass_order wCodec c1Fetch [] c1Doc).1
